import Mathlib

/-!
Shallow embedding of the lexgen lexer runtime (`crates/lexgen_util/src/lib.rs`)
and of the code generator's dispatch logic (`crates/lexgen/src/dfa/codegen.rs`),
together with theorems settling the specification claims about them.

Conventions of the embedding:
* the input string and the character iterator are lists of characters; a byte
  index into the UTF-8 input is mapped to the corresponding suffix with
  `dropBytes` (Rust's `&input[b..]`, which is only ever used at character
  boundaries by the runtime);
* `u32`/`usize` counters are `Nat` (no claim concerns overflow);
* the display-width function of the external `unicode_width` crate is a
  parameter `w : Char → Option Nat` (`UnicodeWidthChar::width`);
* semantic action function pointers are an abstract type parameter `α`, user
  state is `σ`, the user error type is `ε`.
-/

namespace Lexgen

/-- Rust `Loc` from `lexgen_util`: a source location (0-based line and column, plus
byte offset into the UTF-8 input). -/
structure Loc where
  line : Nat
  col : Nat
  byte_idx : Nat
deriving DecidableEq, Repr

/-- Rust `Loc::ZERO`. -/
def Loc.ZERO : Loc := ⟨0, 0, 0⟩

/-- Rust `LexerErrorKind<E>`. -/
inductive LexerErrorKind (ε : Type) where
  | invalidToken
  | custom (e : ε)
deriving DecidableEq, Repr

/-- Rust `LexerError<E>`. -/
structure LexerError (ε : Type) where
  location : Loc
  kind : LexerErrorKind ε
deriving DecidableEq, Repr

/-- The suffix of `input` starting at byte offset `n`: Rust's
`&input[n..].chars()`.  The runtime only slices at character boundaries
(offsets accumulated from `char::len_utf8`); at a non-boundary offset Rust
would panic, the model keeps the remaining characters. -/
def dropBytes : Nat → List Char → List Char
  | _, [] => []
  | 0, cs => cs
  | n, c :: cs => if c.utf8Size ≤ n then dropBytes (n - c.utf8Size) cs else c :: cs

/-- Rust `Lexer` from `lexgen_util`: the mutable runtime state shared by all
generated lexers.  Field names follow the Rust struct (`__state`, `__done` and
`__initial_state` without the underscores). -/
structure Lexer (σ α : Type) where
  state : Nat
  done : Bool
  initial_state : Nat
  user_state : σ
  input : List Char
  iter_loc : Loc
  iter : List Char
  current_match_start : Loc
  current_match_end : Loc
  last_match : Option (Loc × α × Loc)

/-- Rust `Lexer::new_with_state`. -/
def Lexer.new_with_state (input : List Char) (st : σ) : Lexer σ α :=
  { state := 0
    done := false
    initial_state := 0
    user_state := st
    input := input
    iter_loc := Loc.ZERO
    iter := input
    current_match_start := Loc.ZERO
    current_match_end := Loc.ZERO
    last_match := none }

/-- Rust `Lexer::next`: read the next character and advance `current_match_end`.
`w` models `unicode_width::UnicodeWidthChar::width`. -/
def Lexer.next (w : Char → Option Nat) (l : Lexer σ α) : Option Char × Lexer σ α :=
  match l.iter with
  | [] => (none, l)
  | c :: rest =>
    let e := l.current_match_end
    let e := { e with byte_idx := e.byte_idx + c.utf8Size }
    let e :=
      if c = '\n' then { e with line := e.line + 1, col := 0 }
      else if c = '\t' then { e with col := e.col + 4 }
      else { e with col := e.col + (w c).getD 1 }
    (some c, { l with iter := rest, current_match_end := e })

/-- Rust `Lexer::peek`. -/
def Lexer.peek (l : Lexer σ α) : Option Char :=
  l.iter.head?

/-- Rust `Lexer::backtrack`: on success returns the semantic action of the last
match and restores the lexer to the recorded candidate's end; with no recorded
candidate fails with `InvalidToken` at `current_match_start`. -/
def Lexer.backtrack (l : Lexer σ α) : Except (LexerError ε) α × Lexer σ α :=
  match l.last_match with
  | none =>
    (Except.error { location := l.current_match_start, kind := LexerErrorKind.invalidToken }, l)
  | some (match_start, semantic_action, match_end) =>
    (Except.ok semantic_action,
      { l with
        done := false
        current_match_start := match_start
        current_match_end := match_end
        iter := dropBytes match_end.byte_idx l.input
        iter_loc := match_end
        last_match := none })

/-- Rust `Lexer::reset_accepting_state`. -/
def Lexer.reset_accepting_state (l : Lexer σ α) : Lexer σ α :=
  { l with last_match := none }

/-- Rust `Lexer::set_accepting_state`: remember the current match span together
with the selected semantic action. -/
def Lexer.set_accepting_state (semantic_action_fn : α) (l : Lexer σ α) : Lexer σ α :=
  { l with
    last_match := some (l.current_match_start, semantic_action_fn, l.current_match_end) }

/-- Rust `Lexer::reset_match`. -/
def Lexer.reset_match (l : Lexer σ α) : Lexer σ α :=
  { l with current_match_start := l.current_match_end }

/-!
Embedding of `crates/lexgen/src/dfa/codegen.rs`.  The Rust functions build
`TokenStream`s; here each emitted fragment is either mirrored as a small
syntax tree (when a claim is about the shape of the generated code) or by the
denotation of the generated code on the `Lexer` state (when a claim is about
its behaviour).  Right-context indices (`RightCtxIdx`) and semantic action
indices (`SemanticActionIdx`) are abstract (`Nat` resp. a type parameter).
-/

/-- Rust `AcceptingState` from `nfa.rs`: a semantic action together with an
optional right-context automaton index. -/
structure AcceptingState (α : Type) where
  value : α
  right_ctx : Option Nat
deriving DecidableEq, Repr

/-- Rust `MAX_GUARD_SIZE`: above this many ranges for one destination a binary
search table is generated instead of a disjunctive guard. -/
def MAX_GUARD_SIZE : Nat := 9

/-- A single membership test inside a disjunctive guard: either an equality
test `x == c` or an inclusive range test `(lo..=hi).contains(&x)`. -/
inductive RangeCheck where
  | eq (c : Char)
  | between (lo hi : Char)
deriving DecidableEq, Repr

/-- The guard emitted for a set of ranges sharing one destination: either a
call `binary_search(x, &TABLE)` with the materialized table, or an
OR-combined disjunction of membership tests. -/
inductive RangeGuard where
  | binSearch (table : List (Char × Char))
  | disj (checks : List RangeCheck)
deriving DecidableEq, Repr

/-- Rust `inclusive_range_contains` (codegen.rs, bottom): equality test for a
singleton range, inclusive-range containment test otherwise. -/
def inclusive_range_contains (range_start range_end : Char) : RangeCheck :=
  if range_start = range_end then RangeCheck.eq range_start
  else RangeCheck.between range_start range_end

/-- The guard built in `generate_state_char_arms` (codegen.rs lines 609-644)
for the ranges sharing one destination: a binary-search table when there are
more than `MAX_GUARD_SIZE` ranges (the table registered with
`ctx.add_search_table` holds exactly those ranges), otherwise the
OR-combination of per-range checks. -/
def range_guard (ranges : List (Char × Char)) : RangeGuard :=
  if ranges.length > MAX_GUARD_SIZE then RangeGuard.binSearch ranges
  else
    RangeGuard.disj
      (ranges.map fun p =>
        if p.1 = p.2 then RangeCheck.eq p.1 else RangeCheck.between p.1 p.2)

/-!
The generated `binary_search` routine

`binary_search(c, table)` calls `slice::binary_search_by` with a comparator
that reports, for a table entry `(start, end)`, whether the entry lies below,
above or around `c`.  `bsearchGo` mirrors core Rust's binary search loop
(window `[left, right)`, probe at `left + size / 2`) on the sub-list that is
the current window: the probe is the head of `xs.drop (xs.length / 2)`, a
`Less` comparator result continues right of the probe and a `Greater` result
continues in `xs.take (xs.length / 2)`.
-/

/-- The comparator closure inside the generated `binary_search` function
(codegen.rs lines 146-160), as the ordering of the table entry `p` relative
to the probed character `c`. -/
def rangeCmp (c : Char) (p : Char × Char) : Ordering :=
  if p.1 < c then (if c ≤ p.2 then Ordering.eq else Ordering.lt)
  else if c = p.1 then Ordering.eq
  else Ordering.gt

/-- Core Rust's `binary_search_by` loop specialized to the generated
comparator, expressed on the current search window. -/
def bsearchGo (c : Char) (xs : List (Char × Char)) : Bool :=
  match _h : xs.drop (xs.length / 2) with
  | [] => false
  | p :: rest =>
    match rangeCmp c p with
    | Ordering.eq => true
    | Ordering.lt => bsearchGo c rest
    | Ordering.gt => bsearchGo c (xs.take (xs.length / 2))
termination_by xs.length
decreasing_by
  · have hlen := congrArg List.length _h
    simp only [List.length_drop, List.length_cons] at hlen
    omega
  · have hlen := congrArg List.length _h
    simp only [List.length_drop, List.length_cons] at hlen
    simp only [List.length_take]
    omega

/-- The generated `binary_search` function (codegen.rs lines 146-160):
`table.binary_search_by(comparator).is_ok()`. -/
def binary_search (c : Char) (table : List (Char × Char)) : Bool :=
  bsearchGo c table

/-!
Candidate dispatch at accepting states (`test_right_ctxs`)

`test_right_ctxs` (codegen.rs lines 944-973) builds, for an ordered candidate
list, a chain of nested `if right_ctx_fn(iter.clone()) { rhs } else { ... }`
expressions.  `Code` mirrors that generated expression tree; `collect_alts`
mirrors the collection loop (guarded candidates are pushed, the first
unguarded candidate overrides the default and `break`s), and the reversed
fold mirrors the wrapping loop that nests the alternatives. -/
inductive Code (α : Type) where
  | ret (a : α)
  | ite (rc : Nat) (t : α) (e : Code α)
deriving DecidableEq, Repr

/-- The collection loop of `test_right_ctxs` (and of the accepting-state part
of `generate_state_arm`): guarded candidates in order, until the first
unguarded candidate replaces the default and stops the loop. -/
def collect_alts (cands : List (AcceptingState α)) (default_rhs : α) :
    List (Nat × α) × α :=
  match cands with
  | [] => ([], default_rhs)
  | c :: rest =>
    match c.right_ctx with
    | some rc =>
      let (alts, d) := collect_alts rest default_rhs
      ((rc, c.value) :: alts, d)
    | none => ([], c.value)

/-- Rust `test_right_ctxs` (codegen.rs lines 944-973): the generated nested-`if`
dispatch expression for an accepting candidate list. -/
def test_right_ctxs (accepting_states : List (AcceptingState α)) (default_rhs : α) :
    Code α :=
  let (alts, d) := collect_alts accepting_states default_rhs
  alts.reverse.foldl (fun acc p => Code.ite p.1 p.2 acc) (Code.ret d)

/-- Evaluation of the generated nested-`if` expression, given the results of
the right-context procedures on the (cloned) remaining input. -/
def denoteCode (eval : Nat → Bool) : Code α → α
  | Code.ret a => a
  | Code.ite rc t e => if eval rc then t else denoteCode eval e

/-- Evaluation of a not-yet-folded alternative list with a default. -/
def denoteAlts (eval : Nat → Bool) : List (Nat × α) → α → α
  | [], d => d
  | (rc, v) :: rest, d => if eval rc then v else denoteAlts eval rest d

/-- The candidate selection rule as the specification words it: try each
right-context-guarded candidate in declared order, the first whose guard holds
wins; an unguarded candidate is the unconditional default; if nothing is
selected the given default action runs. -/
def firstGuardWins (eval : Nat → Bool) : List (AcceptingState α) → α → α
  | [], d => d
  | c :: rest, d =>
    match c.right_ctx with
    | some rc => if eval rc then c.value else firstGuardWins eval rest d
    | none => c.value

/-!
The accepting-state phase of `generate_state_arm`

At an accepting state the generated arm first runs a nested-`if` chain
(codegen.rs lines 453-480) whose branches call
`self.0.set_accepting_state(action_fn)` and whose guards call
`right_ctx_fn(self.0.__iter.clone())`; with no unguarded candidate the
default of the chain is empty (no statement).  `accept_phase_go` is the
denotation of that chain on the `Lexer` state.  A right-context procedure is
modelled as consuming the iterator it is given (`rcEval rc iter` returns the
Boolean outcome together with its final iterator); the call site hands it a
clone of `__iter` and discards everything but the Boolean. -/
def accept_phase_go (rcEval : Nat → List Char → Bool × List Char) (l : Lexer σ α) :
    List (AcceptingState α) → Lexer σ α
  | [] => l
  | c :: rest =>
    match c.right_ctx with
    | some rc =>
      if (rcEval rc l.iter).1 then Lexer.set_accepting_state c.value l
      else accept_phase_go rcEval l rest
    | none => Lexer.set_accepting_state c.value l

/-- The `set_accepting_state` dispatch run at the top of an accepting state's
arm (codegen.rs lines 453-483). -/
def accept_phase (rcEval : Nat → List Char → Bool × List Char)
    (accepting : List (AcceptingState α)) (l : Lexer σ α) : Lexer σ α :=
  accept_phase_go rcEval l accepting

/-!
End-of-input handling in `generate_state_arm`

For a state with no end-of-input transition the generated arm sets
`self.0.__done = true` and then either returns `None` (state 0) or runs the
backtrack match (`fail()`): `Err(err)` returns `Some(Err(err))`, `Ok(action)`
calls the semantic action (codegen.rs lines 386-392 and 409-433). -/
inductive EoiRes (ε α : Type) where
  | retNone
  | retErr (e : LexerError ε)
  | runAction (a : α)
deriving DecidableEq

/-- The generated handling of an unhandled end-of-input in the arm of state
`state_idx`: set the done flag, then `return None` in state 0, otherwise
backtrack. -/
def end_of_input_unhandled (state_idx : Nat) (l : Lexer σ α) :
    Lexer σ α × EoiRes ε α :=
  let l1 : Lexer σ α := { l with done := true }
  if state_idx = 0 then (l1, EoiRes.retNone)
  else
    match Lexer.backtrack (ε := ε) l1 with
    | (Except.error err, l2) => (l2, EoiRes.retErr err)
    | (Except.ok semantic_action, l2) => (l2, EoiRes.runAction semantic_action)

/-!
Right-context automaton code generation

`generate_right_ctx_fns` (codegen.rs lines 742-769) emits, per right-context
DFA, a free function

    fn NAME_RIGHT_CTX_i<I: Iterator<Item = char> + Clone>(mut input: I) -> bool {
        let mut state: usize = 0;
        loop { match state { ... } }
    }

whose only mutable bindings are the local `state` and the consumed `input`.
The arms are built by `generate_right_ctx_state_arm` and
`generate_right_ctx_state_char_arms` (lines 795-942).  The embedding mirrors
the emitted statements syntactically; note that an assignment to the local
`state` variable and an assignment to a field `self.state` of a (nonexistent)
receiver are distinct statements. -/

/-- A state of a right-context DFA (`State<StateIdx, ()>`): `accepting` holds
the `right_ctx` field of each accepting entry (its value component is `()`),
asserted to be `None` by the generator. -/
structure RcState where
  char_transitions : List (Char × Nat)
  range_transitions : List ((Char × Char) × Nat)
  any_transition : Option Nat
  end_of_input_transition : Option Nat
  accepting : List (Option Nat)
deriving DecidableEq, Repr

/-- A statement emitted into a right-context dispatch arm. -/
inductive RcStmt where
  | returnTrue
  | returnFalse
  | assignState (n : Nat)
  | assignSelfState (n : Nat)
deriving DecidableEq, Repr

/-- The pattern of an emitted right-context match arm: an or-pattern of
character literals, or a guard over the bound character. -/
inductive RcPat where
  | chars (cs : List Char)
  | guard (g : RangeGuard)
deriving DecidableEq, Repr

/-- Rust `states[i]` (Rust indexing panics out of bounds; the DFAs handed to the
generator always index in bounds, the model totalizes with an empty state). -/
def rc_state_at (states : List RcState) (i : Nat) : RcState :=
  states.getD i ⟨[], [], none, none, []⟩

/-- Insertion into a `Map<StateIdx, Vec<_>>` grouping, keyed by destination
state.  The hash map's iteration order is unspecified in Rust; the model uses
first-insertion order for the keys and preserves per-key insertion order of
the values. -/
def insertGroup {γ : Type} (k : Nat) (c : γ) :
    List (Nat × List γ) → List (Nat × List γ)
  | [] => [(k, [c])]
  | (k', cs) :: rest =>
    if k' = k then (k', cs ++ [c]) :: rest else (k', cs) :: insertGroup k c rest

/-- Insertion into a `Set<_>` (iteration modelled in insertion order). -/
def insertDistinct {γ : Type} [DecidableEq γ] (c : γ) (s : List γ) : List γ :=
  if c ∈ s then s else s ++ [c]

/-- The guard built for right-context range transitions (codegen.rs lines
903-920 and 922-939): binary-search table above `MAX_GUARD_SIZE` ranges,
otherwise the OR-combination of `inclusive_range_contains` checks. -/
def rc_range_guard (ranges : List (Char × Char)) : RangeGuard :=
  if ranges.length > MAX_GUARD_SIZE then RangeGuard.binSearch ranges
  else RangeGuard.disj (ranges.map fun p => inclusive_range_contains p.1 p.2)

/-- Rust `generate_right_ctx_state_char_arms` (codegen.rs lines 847-942).  Char
transitions to non-accepting states are grouped by destination and emitted as
`#pat => self.state = #next_state` (line 874); chars reaching an accepting
state are emitted as one `return true` arm; range transitions to
non-accepting states are emitted as `x if #guard => state = #next_state`
(line 919); ranges reaching an accepting state as `x if #guard => return
true`. -/
def generate_right_ctx_state_char_arms (states : List RcState)
    (char_transitions : List (Char × Nat))
    (range_transitions : List ((Char × Char) × Nat)) : List (RcPat × RcStmt) :=
  let grouped :=
    char_transitions.foldl
      (fun (acc : List (Nat × List Char) × List Char) p =>
        if (rc_state_at states p.2).accepting.isEmpty then
          (insertGroup p.2 p.1 acc.1, acc.2)
        else (acc.1, insertDistinct p.1 acc.2))
      ([], [])
  let state_chars := grouped.1
  let accept_chars := grouped.2
  let char_arms :=
    state_chars.map fun g => (RcPat.chars g.2, RcStmt.assignSelfState g.1)
  let accept_char_arms :=
    if accept_chars.isEmpty then []
    else [(RcPat.chars accept_chars, RcStmt.returnTrue)]
  let groupedR :=
    range_transitions.foldl
      (fun (acc : List (Nat × List (Char × Char)) × List (Char × Char)) p =>
        if (rc_state_at states p.2).accepting.isEmpty then
          (insertGroup p.2 p.1 acc.1, acc.2)
        else (acc.1, insertDistinct p.1 acc.2))
      ([], [])
  let state_ranges := groupedR.1
  let accept_ranges := groupedR.2
  let range_arms :=
    state_ranges.map fun g => (RcPat.guard (rc_range_guard g.2), RcStmt.assignState g.1)
  let accept_range_arms :=
    if accept_ranges.isEmpty then []
    else [(RcPat.guard (rc_range_guard accept_ranges), RcStmt.returnTrue)]
  char_arms ++ accept_char_arms ++ range_arms ++ accept_range_arms

/-- The emitted arm for one right-context DFA state: either the whole arm is
`return true` (accepting state), or it reads one character and dispatches
with an end-of-input statement, the char/range arms, and a wildcard
statement. -/
inductive RcArm where
  | allAccept
  | step (eof : RcStmt) (char_arms : List (RcPat × RcStmt)) (wildcard : RcStmt)
deriving DecidableEq, Repr

/-- Rust `generate_right_ctx_state_arm` (codegen.rs lines 795-844). -/
def generate_right_ctx_state_arm (states : List RcState) (state : RcState) :
    RcArm :=
  let state_char_arms :=
    generate_right_ctx_state_char_arms states state.char_transitions
      state.range_transitions
  if !state.accepting.isEmpty then RcArm.allAccept
  else
    let eof :=
      match state.end_of_input_transition with
      | some eof_next => RcStmt.assignState eof_next
      | none => RcStmt.returnFalse
    let wildcard :=
      match state.any_transition with
      | some any_next => RcStmt.assignState any_next
      | none => RcStmt.returnFalse
    RcArm.step eof state_char_arms wildcard

/-!
Theorems about the lexer runtime
-/

/-- C1: with a remembered candidate (`last_match` is `Some`), `backtrack`
succeeds and restores the state exactly to the recorded candidate:
`current_match_start` becomes the recorded match start, `current_match_end`
and the iterator start location become the recorded match end, the character
iterator is reset to the input suffix beginning at the recorded end byte
offset, and the recorded semantic action is returned. -/
theorem backtrack_restores_recorded_candidate {σ α ε : Type}
    (l : Lexer σ α) (ms me : Loc) (sa : α)
    (h : l.last_match = some (ms, sa, me)) :
    Lexer.backtrack (ε := ε) l =
      (Except.ok sa,
        { l with
          done := false
          current_match_start := ms
          current_match_end := me
          iter := dropBytes me.byte_idx l.input
          iter_loc := me
          last_match := none }) := by
  simp [Lexer.backtrack, h]

/-- A lexer mid-scan on input `"abc"`, with a candidate recorded at byte
offset 2 and the cursor already past it. -/
def lexWithMatch : Lexer Unit Nat :=
  { state := 3
    done := true
    initial_state := 0
    user_state := ()
    input := ['a', 'b', 'c']
    iter_loc := Loc.ZERO
    iter := []
    current_match_start := ⟨0, 0, 0⟩
    current_match_end := ⟨0, 3, 3⟩
    last_match := some (⟨0, 0, 0⟩, 7, ⟨0, 2, 2⟩) }

theorem backtrack_restores_recorded_candidate_witness :
    lexWithMatch.last_match = some (⟨0, 0, 0⟩, 7, ⟨0, 2, 2⟩) ∧
    Lexer.backtrack (ε := Unit) lexWithMatch =
      (Except.ok 7,
        { lexWithMatch with
          done := false
          current_match_start := ⟨0, 0, 0⟩
          current_match_end := ⟨0, 2, 2⟩
          iter := dropBytes 2 ['a', 'b', 'c']
          iter_loc := ⟨0, 2, 2⟩
          last_match := none }) :=
  ⟨rfl, backtrack_restores_recorded_candidate lexWithMatch ⟨0, 0, 0⟩ ⟨0, 2, 2⟩ 7 rfl⟩

/-- C3: `backtrack` with no remembered candidate returns an `InvalidToken`
error located at `current_match_start`, and leaves every field of the lexer
state unchanged. -/
theorem backtrack_no_candidate_invalid_token {σ α ε : Type} (l : Lexer σ α)
    (h : l.last_match = none) :
    Lexer.backtrack (ε := ε) l =
      (Except.error
        { location := l.current_match_start, kind := LexerErrorKind.invalidToken },
        l) := by
  simp [Lexer.backtrack, h]

/-- A lexer with no remembered candidate and a nontrivial position. -/
def lexNoMatch : Lexer Unit Nat :=
  { state := 2
    done := false
    initial_state := 0
    user_state := ()
    input := ['x', 'y']
    iter_loc := Loc.ZERO
    iter := ['y']
    current_match_start := ⟨1, 4, 5⟩
    current_match_end := ⟨1, 5, 6⟩
    last_match := none }

theorem backtrack_no_candidate_invalid_token_witness :
    lexNoMatch.last_match = none ∧
    Lexer.backtrack (ε := Unit) lexNoMatch =
      (Except.error
        { location := ⟨1, 4, 5⟩, kind := LexerErrorKind.invalidToken },
        lexNoMatch) :=
  ⟨rfl, backtrack_no_candidate_invalid_token lexNoMatch rfl⟩

/-- C10: a successful `backtrack` clears the done flag (`__done = false`),
while `backtrack` on error leaves the done flag untouched. -/
theorem backtrack_done_flag {σ α ε : Type} (l : Lexer σ α) :
    ((Lexer.backtrack (ε := ε) l).2).done =
      if l.last_match.isSome then false else l.done := by
  rcases h : l.last_match with _ | ⟨⟨ms, sa, me⟩⟩ <;> simp [Lexer.backtrack, h]

/-- C4: a character returned by `next` advances the match-end byte offset by
exactly its UTF-8 length; `'\n'` increments the line and resets the column to
0; `'\t'` advances the column by 4; any other character advances the column
by its display width, defaulting to 1 when the width is undefined. -/
theorem next_position_arithmetic {σ α : Type} (w : Char → Option Nat)
    (l l' : Lexer σ α) (c : Char) (h : Lexer.next w l = (some c, l')) :
    l'.current_match_end.byte_idx = l.current_match_end.byte_idx + c.utf8Size ∧
    (c = '\n' →
      l'.current_match_end.line = l.current_match_end.line + 1 ∧
      l'.current_match_end.col = 0) ∧
    (c ≠ '\n' → c = '\t' →
      l'.current_match_end.line = l.current_match_end.line ∧
      l'.current_match_end.col = l.current_match_end.col + 4) ∧
    (c ≠ '\n' → c ≠ '\t' →
      l'.current_match_end.line = l.current_match_end.line ∧
      l'.current_match_end.col = l.current_match_end.col + (w c).getD 1) := by
  cases hiter : l.iter with
  | nil => simp [Lexer.next, hiter] at h
  | cons c0 rest =>
    simp only [Lexer.next, hiter, Prod.mk.injEq, Option.some.injEq] at h
    obtain ⟨hc, hl⟩ := h
    subst hc
    subst hl
    by_cases hn : c0 = '\n'
    · simp [hn]
    · by_cases ht : c0 = '\t' <;> simp [hn, ht]

/-- A width function agreeing with `unicode_width` on ASCII letters. -/
def asciiWidth : Char → Option Nat := fun _ => some 1

/-- The lexer about to read `'a'` at line 0, column 0, byte offset 0. -/
def lexAtStart : Lexer Unit Nat :=
  Lexer.new_with_state ['a', 'b'] ()

theorem next_position_arithmetic_witness :
    Lexer.next asciiWidth lexAtStart = (some 'a', (Lexer.next asciiWidth lexAtStart).2) ∧
    (Lexer.next asciiWidth lexAtStart).2.current_match_end.byte_idx =
      lexAtStart.current_match_end.byte_idx + 'a'.utf8Size ∧
    (Lexer.next asciiWidth lexAtStart).2.current_match_end.line =
      lexAtStart.current_match_end.line ∧
    (Lexer.next asciiWidth lexAtStart).2.current_match_end.col =
      lexAtStart.current_match_end.col + (asciiWidth 'a').getD 1 :=
  ⟨rfl,
    (next_position_arithmetic asciiWidth lexAtStart _ 'a' rfl).1,
    (next_position_arithmetic asciiWidth lexAtStart _ 'a' rfl).2.2.2
      (by decide) (by decide)⟩

/-!
Theorems about the generated dispatch code
-/

/-- C9: unhandled end-of-input is treated differently at state 0 than
elsewhere: in state 0 the generated dispatcher returns the end-of-input
signal (`None`, no error) with the done flag set; in every other state with
no end-of-input transition it attempts `backtrack` — yielding the remembered
candidate's action if one exists (which clears the done flag again) and an
`InvalidToken` error, with the done flag still set, otherwise. -/
theorem end_of_input_state0_vs_backtrack {σ α ε : Type} (state_idx : Nat)
    (l : Lexer σ α) :
    end_of_input_unhandled (ε := ε) state_idx l =
      if state_idx = 0 then ({ l with done := true }, EoiRes.retNone)
      else
        match l.last_match with
        | none =>
          ({ l with done := true },
            EoiRes.retErr
              { location := l.current_match_start
                kind := LexerErrorKind.invalidToken })
        | some (ms, sa, me) =>
          ({ l with
              done := false
              current_match_start := ms
              current_match_end := me
              iter := dropBytes me.byte_idx l.input
              iter_loc := me
              last_match := none }, EoiRes.runAction sa) := by
  rcases h : l.last_match with _ | ⟨⟨ms, sa, me⟩⟩ <;>
    by_cases h0 : state_idx = 0 <;>
    simp [end_of_input_unhandled, Lexer.backtrack, h, h0]

/-- Evaluating the nested-`if` chain built by the reversed fold tries the
alternatives in their original order. -/
theorem denoteCode_foldl {α : Type} (eval : Nat → Bool) (alts : List (Nat × α))
    (acc : Code α) :
    denoteCode eval
        (alts.reverse.foldl (fun acc p => Code.ite p.1 p.2 acc) acc) =
      denoteAlts eval alts (denoteCode eval acc) := by
  induction alts generalizing acc with
  | nil => rfl
  | cons a rest ih =>
    obtain ⟨rc, v⟩ := a
    rw [List.reverse_cons, List.foldl_append]
    simp only [List.foldl_cons, List.foldl_nil, denoteCode, denoteAlts]
    rw [ih]

/-- The collection loop of `test_right_ctxs` followed by sequential
evaluation selects the first candidate the specification's rule selects. -/
theorem denoteAlts_collect {α : Type} (eval : Nat → Bool)
    (cands : List (AcceptingState α)) (d : α) :
    denoteAlts eval (collect_alts cands d).1 (collect_alts cands d).2 =
      firstGuardWins eval cands d := by
  induction cands with
  | nil => rfl
  | cons c rest ih =>
    rcases hrc : c.right_ctx with _ | rc <;>
      simp [collect_alts, firstGuardWins, hrc, denoteAlts, ih]

/-- C2: the generated dispatch for an accepting state's ordered candidate
list evaluates right-context-guarded candidates in declared order with early
exit — the first guard returning true selects its candidate; if no guard
holds the unguarded default candidate (if present) is selected; and if
neither exists the given default/fail action runs instead. -/
theorem dispatch_first_guard_wins {α : Type} (eval : Nat → Bool)
    (cands : List (AcceptingState α)) (default_rhs : α) :
    denoteCode eval (test_right_ctxs cands default_rhs) =
      firstGuardWins eval cands default_rhs := by
  have h := denoteAlts_collect eval cands default_rhs
  rcases hcol : collect_alts cands default_rhs with ⟨alts, d⟩
  rw [hcol] at h
  simp only [test_right_ctxs, hcol]
  rw [denoteCode_foldl]
  simpa [denoteCode] using h

/-- C5: the guard-testing phase of an accepting state's arm hands every
right-context procedure a clone of the remaining-input iterator, so whatever
the procedure consumes and whatever its outcome, the lexer's iterator, match
positions, state, done flag, input and user state are identical before and
after the dispatch — only the remembered candidate may change. -/
theorem accept_phase_preserves_lexer {σ α : Type}
    (rcEval : Nat → List Char → Bool × List Char)
    (accepting : List (AcceptingState α)) (l : Lexer σ α) :
    (accept_phase rcEval accepting l).iter = l.iter ∧
    (accept_phase rcEval accepting l).iter_loc = l.iter_loc ∧
    (accept_phase rcEval accepting l).current_match_start = l.current_match_start ∧
    (accept_phase rcEval accepting l).current_match_end = l.current_match_end ∧
    (accept_phase rcEval accepting l).state = l.state ∧
    (accept_phase rcEval accepting l).done = l.done ∧
    (accept_phase rcEval accepting l).input = l.input ∧
    (accept_phase rcEval accepting l).user_state = l.user_state ∧
    (accept_phase rcEval accepting l).initial_state = l.initial_state := by
  induction accepting with
  | nil => simp [accept_phase, accept_phase_go]
  | cons c rest ih =>
    rcases hrc : c.right_ctx with _ | rc
    · simp [accept_phase, accept_phase_go, hrc, Lexer.set_accepting_state]
    · by_cases hg : (rcEval rc l.iter).1 = true
      · simp [accept_phase, accept_phase_go, hrc, hg, Lexer.set_accepting_state]
      · simp only [accept_phase, accept_phase_go, hrc,
          Bool.not_eq_true] at ih ⊢
        rw [if_neg (by simp [hg])]
        exact ih

/-- C7: the code generator emits a binary-search table (holding exactly the
grouped ranges) with a call to the shared `binary_search` routine exactly
when the number of ranges for one destination exceeds the fixed threshold 9;
with 9 or fewer ranges it emits the OR-combined disjunction of equality or
inclusive-range membership tests instead. -/
theorem range_guard_threshold (ranges : List (Char × Char)) :
    (range_guard ranges = RangeGuard.binSearch ranges ↔ 9 < ranges.length) ∧
    (range_guard ranges =
        RangeGuard.disj (ranges.map fun p =>
          if p.1 = p.2 then RangeCheck.eq p.1 else RangeCheck.between p.1 p.2) ↔
      ranges.length ≤ 9) := by
  unfold range_guard MAX_GUARD_SIZE
  split_ifs with h <;> simp_all

/-- The right-context DFA recognizing the lookahead `"ab"`: state 0 reads
`'a'` and moves to state 1 (not accepting), state 1 reads `'b'` and moves to
the accepting state 2. -/
def rcLookaheadAB : List RcState :=
  [⟨[('a', 1)], [], none, none, []⟩,
   ⟨[('b', 2)], [], none, none, []⟩,
   ⟨[], [], none, none, [none]⟩]

/-- C6: evaluating the right-context code generator on the `"ab"` lookahead
automaton.  The arm for state 1 correctly emits `return true` for the
character `'b'` that reaches the accepting state, and `return false` for
end-of-input and for unmatched characters; but the arm for state 0 emits the
statement `self.state = 1` (`RcStmt.assignSelfState`) for its char
transition, not an assignment to the local `state` variable
(`RcStmt.assignState`) that the enclosing generated function
`fn NAME_RIGHT_CTX_i(mut input: I) -> bool \x7b let mut state: usize = 0; ... \x7d`
declares — the generated function has no `self`, so the emitted dispatch does
not advance the procedure's state as specified (compare codegen.rs line 874
with line 919, which uses `state = #next_state` for the range case). -/
theorem right_ctx_char_arm_assigns_to_self :
    generate_right_ctx_state_arm rcLookaheadAB (rc_state_at rcLookaheadAB 0) =
      RcArm.step RcStmt.returnFalse
        [(RcPat.chars ['a'], RcStmt.assignSelfState 1)] RcStmt.returnFalse ∧
    generate_right_ctx_state_arm rcLookaheadAB (rc_state_at rcLookaheadAB 1) =
      RcArm.step RcStmt.returnFalse
        [(RcPat.chars ['b'], RcStmt.returnTrue)] RcStmt.returnFalse ∧
    generate_right_ctx_state_arm rcLookaheadAB (rc_state_at rcLookaheadAB 2) =
      RcArm.allAccept := by
  refine ⟨?_, ?_, ?_⟩ <;> rfl

/-- One step facts about the generated comparator: an `eq` verdict means the
probed range contains `c` (given a well-formed range). -/
theorem rangeCmp_eq_mem (c : Char) (p : Char × Char) (hp : p.1 ≤ p.2)
    (h : rangeCmp c p = Ordering.eq) : p.1 ≤ c ∧ c ≤ p.2 := by
  unfold rangeCmp at h
  split_ifs at h with h1 h2 h3
  · exact ⟨le_of_lt h1, h2⟩
  · exact ⟨le_of_eq h3.symm, h3 ▸ hp⟩

/-- A `lt` verdict means the probed range lies strictly below `c`. -/
theorem rangeCmp_lt_below (c : Char) (p : Char × Char)
    (h : rangeCmp c p = Ordering.lt) : p.2 < c := by
  unfold rangeCmp at h
  split_ifs at h with h1 h2 h3
  exact not_le.mp h2

/-- A `gt` verdict means the probed range lies strictly above `c`. -/
theorem rangeCmp_gt_above (c : Char) (p : Char × Char)
    (h : rangeCmp c p = Ordering.gt) : c < p.1 := by
  unfold rangeCmp at h
  split_ifs at h with h1 h2 h3
  exact lt_of_le_of_ne (not_lt.mp h1) h3

/-- Binary search over a sorted list of pairwise disjoint well-formed ranges
finds `c` exactly when some range of the list contains it (strong induction
on the length of the search window). -/
theorem bsearchGo_mem_iff (c : Char) (n : Nat) :
    ∀ xs : List (Char × Char), xs.length ≤ n →
      (∀ p ∈ xs, p.1 ≤ p.2) →
      xs.Pairwise (fun p q => p.2 < q.1) →
      (bsearchGo c xs = true ↔ ∃ p ∈ xs, p.1 ≤ c ∧ c ≤ p.2) := by
  induction n with
  | zero =>
    intro xs hn _ _
    have hxs : xs = [] := List.eq_nil_of_length_eq_zero (Nat.le_zero.mp hn)
    subst hxs
    rw [bsearchGo.eq_def]
    simp
  | succ n ih =>
    intro xs hn hr hs
    rw [bsearchGo.eq_def]
    split
    next hdrop =>
      have hlen0 : xs.length = 0 := by
        have := congrArg List.length hdrop
        simp only [List.length_drop, List.length_nil] at this
        omega
      have hxs : xs = [] := List.eq_nil_of_length_eq_zero hlen0
      subst hxs
      simp
    next p rest hdrop =>
      have hmlen : xs.length - xs.length / 2 = rest.length + 1 := by
        have := congrArg List.length hdrop
        simpa [List.length_drop] using this
      have hm : xs.length / 2 < xs.length := by omega
      have hxs : xs.take (xs.length / 2) ++ p :: rest = xs := by
        rw [← hdrop]
        exact List.take_append_drop (xs.length / 2) xs
      have hp : (xs.take (xs.length / 2) ++ p :: rest).Pairwise
          (fun p q => p.2 < q.1) := by
        rw [hxs]; exact hs
      rw [List.pairwise_append] at hp
      obtain ⟨hp1, hp2, hcross⟩ := hp
      rw [List.pairwise_cons] at hp2
      obtain ⟨hph, hprest⟩ := hp2
      have hpmem : p ∈ xs := by
        rw [← hxs]
        exact List.mem_append_right _ (List.mem_cons_self p rest)
      have hp12 : p.1 ≤ p.2 := hr p hpmem
      split
      next hcmp =>
        have hin := rangeCmp_eq_mem c p hp12 hcmp
        simp only [true_iff]
        exact ⟨p, hpmem, hin⟩
      next hcmp =>
        have hbelow := rangeCmp_lt_below c p hcmp
        have hrest_len : rest.length ≤ n := by omega
        have hr' : ∀ q ∈ rest, q.1 ≤ q.2 := fun q hq =>
          hr q (by
            rw [← hxs]
            exact List.mem_append_right _ (List.mem_cons_of_mem _ hq))
        rw [ih rest hrest_len hr' hprest]
        constructor
        · rintro ⟨q, hq, hcond⟩
          exact ⟨q, by
            rw [← hxs]
            exact List.mem_append_right _ (List.mem_cons_of_mem _ hq), hcond⟩
        · rintro ⟨q, hq, hcond⟩
          rw [← hxs] at hq
          rcases List.mem_append.mp hq with htake | hcons
          · have hqp : q.2 < p.1 := hcross q htake p (List.mem_cons_self p rest)
            have : q.2 < c := lt_trans (lt_of_lt_of_le hqp hp12) hbelow
            exact absurd hcond.2 (not_le.mpr this)
          · rcases List.mem_cons.mp hcons with hqp | hqrest
            · subst hqp
              exact absurd hcond.2 (not_le.mpr hbelow)
            · exact ⟨q, hqrest, hcond⟩
      next hcmp =>
        have habove := rangeCmp_gt_above c p hcmp
        have htake_len : (xs.take (xs.length / 2)).length ≤ n := by
          simp only [List.length_take]
          omega
        have hr'' : ∀ q ∈ xs.take (xs.length / 2), q.1 ≤ q.2 := fun q hq =>
          hr q (by rw [← hxs]; exact List.mem_append_left _ hq)
        rw [ih (xs.take (xs.length / 2)) htake_len hr'' hp1]
        constructor
        · rintro ⟨q, hq, hcond⟩
          exact ⟨q, by rw [← hxs]; exact List.mem_append_left _ hq, hcond⟩
        · rintro ⟨q, hq, hcond⟩
          rw [← hxs] at hq
          rcases List.mem_append.mp hq with htake | hcons
          · exact ⟨q, htake, hcond⟩
          · rcases List.mem_cons.mp hcons with hqp | hqrest
            · subst hqp
              exact absurd hcond.1 (not_le.mpr habove)
            · have hq1 : p.2 < q.1 := hph q hqrest
              have : c < q.1 := lt_trans (lt_of_lt_of_le habove hp12) hq1
              exact absurd hcond.1 (not_le.mpr this)

/-- C8: for a sorted list of pairwise disjoint inclusive character ranges,
the generated `binary_search(c, table)` routine returns true exactly when
some range `(start, end)` of the table satisfies `start ≤ c ≤ end` — it
agrees with the direct disjunctive evaluation of the same ranges at every
character. -/
theorem binary_search_correct (c : Char) (table : List (Char × Char))
    (hranges : ∀ p ∈ table, p.1 ≤ p.2)
    (hsorted : table.Pairwise fun p q => p.2 < q.1) :
    (binary_search c table = true ↔ ∃ p ∈ table, p.1 ≤ c ∧ c ≤ p.2) :=
  bsearchGo_mem_iff c table.length table (le_refl _) hranges hsorted

/-- A sorted disjoint range table: digits, upper-case and lower-case ASCII. -/
def sampleTable : List (Char × Char) := [('0', '9'), ('A', 'Z'), ('a', 'z')]

theorem binary_search_correct_witness :
    (∀ p ∈ sampleTable, p.1 ≤ p.2) ∧
    sampleTable.Pairwise (fun p q => p.2 < q.1) ∧
    (binary_search 'Q' sampleTable = true ↔
      ∃ p ∈ sampleTable, p.1 ≤ 'Q' ∧ 'Q' ≤ p.2) :=
  ⟨by decide, by decide,
    binary_search_correct 'Q' sampleTable (by decide) (by decide)⟩

end Lexgen
